import Mathlib

/-!
Verification development for the ExaDiS python utilities
(`python/pyexadis_utils.py`): periodic-cell geometry kernel,
infinite-line closure march, slip-system character-angle calibration,
and the PBC boundary clipping walk used by `write_vtk`.

Machine floating-point scalars are embedded as rationals `ℚ`; the
transcendental primitives (`np.sqrt` inside `np.linalg.norm`,
`np.cos`/`np.sin` of the character angle in degrees) are threaded as an
explicit oracle record `ScalarOps`, so every definition below is a
computable function of the source's inputs plus that oracle.  Concrete
evaluations instantiate the oracle with `ratExact`, whose square root is
exact on perfect squares of rationals (all concrete inputs used below
are chosen so that every square root and trigonometric value demanded
by the computation is exact).
-/

set_option autoImplicit false

attribute [local semireducible] Rat.add Rat.sub Rat.mul Rat.inv

namespace PyExadis

/-- A 3-component real-valued coordinate (point or direction), over `ℚ`. -/
structure Vec3 where
  x : ℚ
  y : ℚ
  z : ℚ
deriving DecidableEq, Repr

instance : Zero Vec3 := ⟨⟨0, 0, 0⟩⟩

instance : Add Vec3 := ⟨fun a b => ⟨a.x + b.x, a.y + b.y, a.z + b.z⟩⟩

instance : Sub Vec3 := ⟨fun a b => ⟨a.x - b.x, a.y - b.y, a.z - b.z⟩⟩

instance : Neg Vec3 := ⟨fun a => ⟨-a.x, -a.y, -a.z⟩⟩

instance : SMul ℚ Vec3 := ⟨fun c a => ⟨c * a.x, c * a.y, c * a.z⟩⟩

/-- Componentwise division by a scalar (`numpy` array / scalar). -/
def vdiv (a : Vec3) (c : ℚ) : Vec3 := ⟨a.x / c, a.y / c, a.z / c⟩

/-- `np.dot` for 3-vectors. -/
def dot (a b : Vec3) : ℚ := a.x * b.x + a.y * b.y + a.z * b.z

/-- `np.cross` for 3-vectors. -/
def cross (a b : Vec3) : Vec3 :=
  ⟨a.y * b.z - a.z * b.y, a.z * b.x - a.x * b.z, a.x * b.y - a.y * b.x⟩

/-- Squared Euclidean norm. -/
def quadr (a : Vec3) : ℚ := dot a a

/-- A 3×3 matrix, stored as its three rows (the cell matrix `h` stores
the lattice vectors as rows). -/
structure Mat3 where
  r0 : Vec3
  r1 : Vec3
  r2 : Vec3
deriving DecidableEq, Repr

/-- Matrix–vector product `m ⬝ v` (linear combination of the columns of
`m` with coefficients `v`), as in `np.matmul(h, s)`. -/
def matVec (m : Mat3) (v : Vec3) : Vec3 := ⟨dot m.r0 v, dot m.r1 v, dot m.r2 v⟩

/-- Row-vector–matrix product `v ⬝ m` (linear combination of the rows of
`m` with coefficients `v`), as in `np.matmul(v, h)`. -/
def vecMat (v : Vec3) (m : Mat3) : Vec3 :=
  v.x • m.r0 + v.y • m.r1 + v.z • m.r2

/-- Column `j` (`j = 0, 1, 2`) of a matrix, as in `h[:, j]`. -/
def mcol (m : Mat3) (j : Nat) : Vec3 :=
  if j = 0 then ⟨m.r0.x, m.r1.x, m.r2.x⟩
  else if j = 1 then ⟨m.r0.y, m.r1.y, m.r2.y⟩
  else ⟨m.r0.z, m.r1.z, m.r2.z⟩

/-- `np.linalg.det` of a 3×3 matrix. -/
def det3 (m : Mat3) : ℚ :=
  m.r0.x * (m.r1.y * m.r2.z - m.r1.z * m.r2.y)
  - m.r0.y * (m.r1.x * m.r2.z - m.r1.z * m.r2.x)
  + m.r0.z * (m.r1.x * m.r2.y - m.r1.y * m.r2.x)

/-- `np.linalg.inv` (adjugate over determinant); a generic matrix
primitive the spec assumes available.  On a singular matrix the entries
divide by zero, which yields junk values, as callers never rely on. -/
def matInv (m : Mat3) : Mat3 :=
  let d := det3 m
  ⟨⟨(m.r1.y * m.r2.z - m.r1.z * m.r2.y) / d,
    (m.r0.z * m.r2.y - m.r0.y * m.r2.z) / d,
    (m.r0.y * m.r1.z - m.r0.z * m.r1.y) / d⟩,
   ⟨(m.r1.z * m.r2.x - m.r1.x * m.r2.z) / d,
    (m.r0.x * m.r2.z - m.r0.z * m.r2.x) / d,
    (m.r0.z * m.r1.x - m.r0.x * m.r1.z) / d⟩,
   ⟨(m.r1.x * m.r2.y - m.r1.y * m.r2.x) / d,
    (m.r0.y * m.r2.x - m.r0.x * m.r2.y) / d,
    (m.r0.x * m.r1.y - m.r0.y * m.r1.x) / d⟩⟩

/-- Oracle record for the scalar primitives the source takes from
`numpy`: the square root used by `np.linalg.norm`, and cosine/sine of an
angle given in degrees (`np.cos(theta*np.pi/180.0)` etc.). -/
structure ScalarOps where
  sqrt : ℚ → ℚ
  cosd : ℚ → ℚ
  sind : ℚ → ℚ

/-- Euclidean norm via the oracle square root. -/
def nrm (ops : ScalarOps) (v : Vec3) : ℚ := ops.sqrt (quadr v)

/-- `v / np.linalg.norm(v)`. -/
def unit (ops : ScalarOps) (v : Vec3) : Vec3 := vdiv v (nrm ops v)

/-- Fuel-based integer square root (digit recursion on `n / 4`); the
first argument is fuel, always sufficient when instantiated with `n`
itself. -/
def isqrtAux : Nat → Nat → Nat
  | 0, _ => 0
  | _, 0 => 0
  | Nat.succ fuel, n =>
      let r := isqrtAux fuel (n / 4)
      if (2 * r + 1) * (2 * r + 1) ≤ n then 2 * r + 1 else 2 * r

/-- Integer square root (equals `Nat.sqrt`, but reduces by structural
recursion). -/
def isqrt (n : Nat) : Nat := isqrtAux n n

/-- Exact rational square root: `ratSqrt q` is the exact square root of
`q` when `q` is a square of a rational, and `0` otherwise. -/
def ratSqrt (q : ℚ) : ℚ :=
  let n := isqrt q.num.natAbs
  let d := isqrt q.den
  if 0 ≤ q.num ∧ n * n = q.num.natAbs ∧ d * d = q.den then (n : ℚ) / (d : ℚ) else 0

theorem ratSqrt_nonneg (q : ℚ) : 0 ≤ ratSqrt q := by
  unfold ratSqrt
  dsimp only
  split
  · exact div_nonneg (by positivity) (by positivity)
  · exact le_refl 0

/-- Concrete oracle used for evaluating definitions on concrete inputs:
exact square roots, and trigonometric values that are exact at the
multiples of 90 degrees. -/
def ratExact : ScalarOps where
  sqrt := ratSqrt
  cosd := fun θ => if θ = 0 then 1 else 0
  sind := fun θ => if θ = 90 then 1 else 0

/-- The periodic simulation cell: lattice vectors as the rows of `h`,
plus an origin.  All claims below concern fully periodic cells, so the
per-axis periodicity flags are not carried. -/
structure Cell where
  h : Mat3
  origin : Vec3
deriving DecidableEq, Repr

/-- `cell.center() = origin + 0.5*(h[0]+h[1]+h[2])`. -/
def center (cell : Cell) : Vec3 :=
  cell.origin + (1/2 : ℚ) • (cell.h.r0 + cell.h.r1 + cell.h.r2)

/-- Wrap a fractional coordinate into `[-1/2, 1/2)`. -/
def wrapHalf (s : ℚ) : ℚ := s - ((⌊s + 1/2⌋ : ℤ) : ℚ)

/-- Componentwise `wrapHalf`. -/
def wrapVec (v : Vec3) : Vec3 := ⟨wrapHalf v.x, wrapHalf v.y, wrapHalf v.z⟩

/-- Modelled from the spec: `pyexadis.Cell.closest_image(Rref, R)` is
implemented by the C++ binding, which is not part of this repository's
sources.  Per the spec it returns the representative of `R`'s
periodic-image class nearest to `Rref`, by transforming the offset
`R - Rref` into fractional coordinates via `h⁻¹` (rows of `h` being the
lattice vectors), wrapping each fractional component into `[-1/2, 1/2)`,
and mapping back to Cartesian coordinates. -/
def closest_image (cell : Cell) (rref r : Vec3) : Vec3 :=
  rref + vecMat (wrapVec (vecMat (r - rref) (matInv cell.h))) cell.h

/-- Modelled from the spec: `pyexadis.Cell(Lbox)` (C++ binding, not in
this repository's sources) builds a cubic periodic cell of side `Lbox`;
the origin is taken at zero. -/
def cellCube (L : ℚ) : Cell :=
  ⟨⟨⟨L, 0, 0⟩, ⟨0, L, 0⟩, ⟨0, 0, L⟩⟩, 0⟩

/-- Node constraint tags (from `pyexadis_base.NodeConstraints`). -/
inductive NodeConstraints where
  | UNCONSTRAINED
  | PINNED_NODE
deriving DecidableEq, Repr

/-- A node: position plus constraint tag
(`np.concatenate((p, [constraint]))`). -/
structure Node where
  pos : Vec3
  constraint : NodeConstraints
deriving DecidableEq, Repr

/-- A segment: endpoint node indices, Burgers vector, habit-plane normal
(`np.concatenate(([n1, n2], burg, plane))`). -/
structure Seg where
  n1 : Nat
  n2 : Nat
  burg : Vec3
  plane : Vec3
deriving DecidableEq, Repr

/-! ## insert_infinite_line -/

/-- `maxnodes = 1000`: the step bound of the closure march. -/
def maxnodes : Nat := 1000

/-- The line direction used by `insert_infinite_line` (and
`insert_frank_read_src`): a caller-supplied `linedir` is normalized;
otherwise `cos(theta)*b + sin(theta)*y` with `b` the normalized Burgers
vector and `y = normalize(cross(plane, b))`.  `plane` is already
normalized by the caller. -/
def lineDirOf (ops : ScalarOps) (burg plane : Vec3) (theta : ℚ)
    (linedir : Option Vec3) : Vec3 :=
  match linedir with
  | some v => unit ops v
  | none =>
      let b := unit ops burg
      let y := unit ops (cross plane b)
      ops.cosd theta • b + ops.sind theta • y

/-- `seglength = 0.15*Lmin`, clamped by `maxseg` when `maxseg > 0`,
where `Lmin = np.min(np.linalg.norm(h, axis=1))`. -/
def seglengthOf (ops : ScalarOps) (cell : Cell) (maxseg : ℚ) : ℚ :=
  let Lmin := min (min (nrm ops cell.h.r0) (nrm ops cell.h.r1)) (nrm ops cell.h.r2)
  let s := (3/20 : ℚ) * Lmin
  if 0 < maxseg then min s maxseg else s

/-- State of the closure march loop of `insert_infinite_line`. -/
structure MarchState where
  p : Vec3
  originpbc : Vec3
  numnodes : Nat
  meet : Bool
deriving DecidableEq, Repr

/-- One iteration of the march loop body:
`p += seglength*ldir; pp = closest_image(origin, p); dist = |pp-origin|;
if numnodes > 0 and dist < seglength: originpbc = closest_image(p, origin); meet = 1;
numnodes += 1`. -/
def marchStep (ops : ScalarOps) (cell : Cell) (origin ldir : Vec3)
    (seglength : ℚ) (st : MarchState) : MarchState :=
  let p := st.p + seglength • ldir
  let pp := closest_image cell origin p
  let dist := ops.sqrt (quadr (pp - origin))
  if 0 < st.numnodes ∧ dist < seglength then
    ⟨p, closest_image cell p origin, st.numnodes + 1, true⟩
  else
    ⟨p, st.originpbc, st.numnodes + 1, st.meet⟩

/-- The march loop `while ((~meet) & (numnodes < maxnodes))`, as a
fuel-indexed recursion; `insert_infinite_line` runs it with fuel
`maxnodes`, which suffices since every iteration increments
`numnodes`. -/
def march (ops : ScalarOps) (cell : Cell) (origin ldir : Vec3)
    (seglength : ℚ) : Nat → MarchState → MarchState
  | 0, st => st
  | Nat.succ fuel, st =>
      if st.meet = false ∧ st.numnodes < maxnodes then
        march ops cell origin ldir seglength fuel
          (marchStep ops cell origin ldir seglength st)
      else st

/-- The final march state of a call to `insert_infinite_line`
(initial state `p = origin`, `originpbc = origin`, `numnodes = 0`,
`meet = 0`). -/
def marchOf (ops : ScalarOps) (cell : Cell) (burg plane origin : Vec3)
    (theta : ℚ) (linedir : Option Vec3) (maxseg : ℚ) : MarchState :=
  march ops cell origin
    (lineDirOf ops burg (unit ops plane) theta linedir)
    (seglengthOf ops cell maxseg) maxnodes ⟨origin, origin, 0, false⟩

/-- Return value of `insert_infinite_line`: a scalar (trial mode) or
the node and segment lists (non-trial mode). -/
inductive LineResult where
  | scalar (l : ℚ)
  | lists (nodes : List Node) (segs : List Seg)
deriving DecidableEq, Repr

/-- The segment list of a `lists` result. -/
def segsOf : LineResult → List Seg
  | .scalar _ => []
  | .lists _ segs => segs

/-- The node list of a `lists` result. -/
def nodesOf : LineResult → List Node
  | .scalar _ => []
  | .lists nodes _ => nodes

def orthoWarnMsg : String := "Warning: Burgers vector and plane normal are not orthogonal"

def tooLongMsg : String := "Warning: infinite line is too long, aborting"

/-- The diagnostic messages printed by `insert_infinite_line` before the
march (the Burgers/plane orthogonality check
`np.abs(np.dot(burg, plane)) >= 1e-5`, with `plane` normalized). -/
def orthoWarns (ops : ScalarOps) (burg plane : Vec3) : List String :=
  if (1/100000 : ℚ) ≤ |dot burg (unit ops plane)| then [orthoWarnMsg] else []

/-- Shallow embedding of `insert_infinite_line`.  Python mutates the
caller's `nodes`/`segs` lists in place and returns them; here the
function is pure, returning either the trial scalar or the new lists.
Printing is modelled by the second component (list of warnings).
Python exceptions do not occur in this function (it is total). -/
def insert_infinite_line (ops : ScalarOps) (cell : Cell)
    (nodes : List Node) (segs : List Seg) (burg plane origin : Vec3)
    (theta : ℚ) (linedir : Option Vec3) (maxseg : ℚ) (trial : Bool) :
    LineResult × List String :=
  let warns := orthoWarns ops burg plane
  let st := marchOf ops cell burg plane origin theta linedir maxseg
  if st.numnodes = maxnodes then
    if trial then (.scalar (-1), warns)
    else (.lists nodes segs, warns ++ [tooLongMsg])
  else if trial then
    (.scalar (ops.sqrt (quadr (st.originpbc - origin))), warns)
  else
    let numnodes := st.numnodes
    let istart := nodes.length
    let newNodes := (List.range numnodes).map fun i =>
      Node.mk (origin + ((i : ℚ) / (numnodes : ℚ)) • (st.originpbc - origin))
        .UNCONSTRAINED
    let newSegs := (List.range numnodes).map fun i =>
      Seg.mk (istart + i) (istart + (i + 1) % numnodes) burg (unit ops plane)
    (.lists (nodes ++ newNodes) (segs ++ newSegs), warns)

/-! ## write_vtk: PBC boundary clipping walk -/

/-- The epsilon of the clipping walk (`eps = 1e-10` in `write_vtk`). -/
def veps : ℚ := 1 / 10000000000

/-- `np.argmin` for a list of rationals: index of the first occurrence
of the minimum (`0` for the empty list). -/
def argminQ : List ℚ → Nat
  | [] => 0
  | x :: xs =>
      if xs = [] then 0
      else if x ≤ xs.getD (argminQ xs) 0 then 0
      else argminQ xs + 1

/-- `outside_box(p)`: a point is outside the box when some fractional
coordinate `s = hinv ⬝ (p - cell_origin)` is below `-eps` or above
`1 + eps`. -/
def outside_box (hinv : Mat3) (cellOrigin : Vec3) (p : Vec3) : Bool :=
  let s := matVec hinv (p - cellOrigin)
  s.x < -veps || s.y < -veps || s.z < -veps ||
  1 + veps < s.x || 1 + veps < s.y || 1 + veps < s.z

/-- `facet_intersection_position(r1, r2, i)`: parametric intersections
of the fractional-space segment with the six facets (`s = 0` on axes
`0,1,2`, then `s = 1` on axes `3,4,5`), candidates below `eps` forced to
`1.0`, first minimal candidate selected; returns `(pos, facet, sfacet)`
with `facet = none` modelling the Python sentinel `-1`. -/
def facet_intersection_position (h hinv : Mat3) (cellOrigin : Vec3)
    (r1 r2 : Vec3) : Vec3 × Option Nat × ℚ :=
  let s1 := matVec hinv (r1 - cellOrigin)
  let s2 := matVec hinv (r2 - cellOrigin)
  let t := s2 - s1
  let t0x := -(s1.x - 0) / (t.x + veps)
  let t0y := -(s1.y - 0) / (t.y + veps)
  let t0z := -(s1.z - 0) / (t.z + veps)
  let t1x := -(s1.x - 1) / (t.x + veps)
  let t1y := -(s1.y - 1) / (t.y + veps)
  let t1z := -(s1.z - 1) / (t.z + veps)
  let s6 := [t0x, t0y, t0z, t1x, t1y, t1z].map fun v => if v < veps then 1 else v
  let facet := argminQ s6
  let sfacet := s6.getD facet 1
  if sfacet < 1 then
    (matVec h (s1 + sfacet • t) + cellOrigin, some facet, sfacet)
  else
    (r2, none, 1)

/-- One iteration of the clipping `while` loop of `write_vtk`: find the
facet intersection; on the `facet < 0` sentinel stop (`none`); otherwise
emit the sub-segment `(r1, pos)`, re-anchor
`r1 = pos + (1 - 2*floor(facet/3)) * (1 - 2*eps) * h[:, facet % 3]`,
and recompute `r2` as the minimum image of the far node position. -/
def clip_step (cell : Cell) (rn2 r1 r2 : Vec3) :
    Option ((Vec3 × Vec3) × Vec3 × Vec3) :=
  let h := cell.h
  let hinv := matInv h
  let fip := facet_intersection_position h hinv cell.origin r1 r2
  fip.2.1.map fun facet =>
    let pos := fip.1
    let newR1 := pos +
      ((1 : ℚ) - 2 * ((facet / 3 : Nat) : ℚ)) • ((1 - 2 * veps) • mcol h (facet % 3))
    let newR2 := closest_image cell newR1 rn2
    ((r1, pos), newR1, newR2)

/-- How the clipping walk's loop ended: the outside test returned false,
the no-forward-facet `break` was taken, or the model's fuel ran out
(the Python loop carries no iteration bound of its own). -/
inductive ClipExit where
  | inBox
  | noFacet
  | fuelOut
deriving DecidableEq, Repr

/-- The clipping `while out:` loop, fuel-indexed.  Returns the emitted
sub-segments of the loop body, the final `(r1, r2)` pair (emitted after
the loop in the source), and how the loop ended. -/
def clip_walk (cell : Cell) (rn2 : Vec3) :
    Nat → Vec3 → Vec3 → List (Vec3 × Vec3) × (Vec3 × Vec3) × ClipExit
  | 0, r1, r2 => ([], (r1, r2), .fuelOut)
  | Nat.succ fuel, r1, r2 =>
      if outside_box (matInv cell.h) cell.origin r2 then
        (clip_step cell rn2 r1 r2).elim ([], (r1, r2), .noFacet) fun pr =>
          let rest := clip_walk cell rn2 fuel pr.2.1 pr.2.2
          (pr.1 :: rest.1, rest.2)
      else ([], (r1, r2), .inBox)

/-- Per-segment clipping of `write_vtk` (with `pbc_wrap` enabled):
reduce the two node positions by minimum image (`r1` to the cell center,
`r2` to `r1`), run the clipping walk, then emit the final remaining
sub-segment.  Returns the emitted pieces and the loop's exit kind. -/
def clip_segment (cell : Cell) (rn1 rn2 : Vec3) (fuel : Nat) :
    List (Vec3 × Vec3) × ClipExit :=
  let r1 := closest_image cell (center cell) rn1
  let r2 := closest_image cell r1 rn2
  let res := clip_walk cell rn2 fuel r1 r2
  (res.1 ++ [res.2.1], res.2.2)

/-! ## generate_line_config -/

/-- The 12 BCC `<111>{110}` Burgers vectors (before normalization). -/
def bccB : List Vec3 :=
  [⟨-1, 1, 1⟩, ⟨1, 1, 1⟩, ⟨-1, -1, 1⟩, ⟨1, -1, 1⟩,
   ⟨-1, 1, 1⟩, ⟨1, 1, 1⟩, ⟨-1, -1, 1⟩, ⟨1, -1, 1⟩,
   ⟨-1, 1, 1⟩, ⟨1, 1, 1⟩, ⟨-1, -1, 1⟩, ⟨1, -1, 1⟩]

/-- The 12 BCC `{110}` plane normals (before normalization). -/
def bccN : List Vec3 :=
  [⟨0, -1, 1⟩, ⟨0, -1, 1⟩, ⟨0, 1, 1⟩, ⟨0, 1, 1⟩,
   ⟨1, 0, 1⟩, ⟨-1, 0, 1⟩, ⟨1, 0, 1⟩, ⟨-1, 0, 1⟩,
   ⟨1, 1, 0⟩, ⟨-1, 1, 0⟩, ⟨-1, 1, 0⟩, ⟨1, 1, 0⟩]

/-- The 12 FCC `<110>{111}` Burgers vectors (before normalization). -/
def fccB : List Vec3 :=
  [⟨0, 1, -1⟩, ⟨1, 0, -1⟩, ⟨1, -1, 0⟩,
   ⟨0, 1, -1⟩, ⟨1, 0, 1⟩, ⟨1, 1, 0⟩,
   ⟨0, 1, 1⟩, ⟨1, 0, -1⟩, ⟨1, 1, 0⟩,
   ⟨0, 1, 1⟩, ⟨1, 0, 1⟩, ⟨1, -1, 0⟩]

/-- The 12 FCC `{111}` plane normals (before normalization). -/
def fccN : List Vec3 :=
  [⟨1, 1, 1⟩, ⟨1, 1, 1⟩, ⟨1, 1, 1⟩,
   ⟨-1, 1, 1⟩, ⟨-1, 1, 1⟩, ⟨-1, 1, 1⟩,
   ⟨1, -1, 1⟩, ⟨1, -1, 1⟩, ⟨1, -1, 1⟩,
   ⟨1, 1, -1⟩, ⟨1, 1, -1⟩, ⟨1, 1, -1⟩]

/-- Normalize each row of a direction table
(`b / np.linalg.norm(b, axis=1)[:,None]`). -/
def normalizeRows (ops : ScalarOps) (l : List Vec3) : List Vec3 :=
  l.map (unit ops)

/-- The `ntheta = 19` candidate character angles
`theta = 90.0/(ntheta-1)*np.arange(ntheta)`. -/
def theta_grid (t : Nat) : ℚ := 90 / 18 * (t : ℚ)

/-- The trial closure length recorded by the calibration loop:
`insert_infinite_line(cell, [], [], burg, plane, c, theta=θ, maxseg=maxseg,
trial=True)` from the cell center `c`. -/
def trialLen (ops : ScalarOps) (cell : Cell) (maxseg : ℚ)
    (burg plane : Vec3) (θ : ℚ) : ℚ :=
  match (insert_infinite_line ops cell [] [] burg plane (center cell)
      θ none maxseg true).1 with
  | .scalar l => l
  | .lists _ _ => 0

/-- Row `isys` of `theta_minlength`: the 19 recorded trial lengths. -/
def recordedRow (ops : ScalarOps) (cell : Cell) (maxseg : ℚ)
    (burg plane : Vec3) : List ℚ :=
  (List.range 19).map fun t => trialLen ops cell maxseg burg plane (theta_grid t)

/-- `np.ma.masked_less(row, 0.0).min().filled(-1.0)`: minimum of the
non-negative entries of a row, `-1` when the row has none. -/
def minRowValid (l : List ℚ) : ℚ :=
  match l.filter fun v => decide (0 ≤ v) with
  | [] => -1
  | x :: xs => xs.foldl min x

/-- `np.max` of a list (`0` for the empty list, which the source never
takes a maximum of). -/
def maxQ : List ℚ → ℚ
  | [] => 0
  | x :: xs => xs.foldl max x

/-- `np.min` of a list (`0` for the empty list). -/
def minQ : List ℚ → ℚ
  | [] => 0
  | x :: xs => xs.foldl min x

/-- Minimum of `key` over the valid (non-negative) entries of a list,
`none` when no entry is valid. -/
def validKeyMin (key : ℚ → ℚ) : List ℚ → Option ℚ
  | [] => none
  | x :: xs =>
      match validKeyMin key xs with
      | none => if 0 ≤ x then some (key x) else none
      | some m => if 0 ≤ x then some (min (key x) m) else some m

/-- `np.ma` `argmin` with key `key`: first index of a valid
(non-negative) entry minimizing `key` (`0` when no entry is valid,
a case the source guards against). -/
def margmin (key : ℚ → ℚ) : List ℚ → Nat
  | [] => 0
  | x :: xs =>
      match validKeyMin key xs with
      | none => 0
      | some m => if 0 ≤ x ∧ key x ≤ m then 0 else margmin key xs + 1

/-- The table `theta_minlength`: one recorded row per slip system. -/
def calibRows (ops : ScalarOps) (cell : Cell) (maxseg : ℚ)
    (bs ns : List Vec3) : List (List ℚ) :=
  (bs.zip ns).map fun bn => recordedRow ops cell maxseg bn.1 bn.2

/-- `minlength = np.ma.masked_less(theta_minlength, 0.0).min(axis=1).filled(-1.0)`. -/
def calibMinlength (ops : ScalarOps) (cell : Cell) (maxseg : ℚ)
    (bs ns : List Vec3) : List ℚ :=
  (calibRows ops cell maxseg bs ns).map minRowValid

/-- `maxlength = np.max(minlength)`. -/
def calibMax (ops : ScalarOps) (cell : Cell) (maxseg : ℚ)
    (bs ns : List Vec3) : ℚ :=
  maxQ (calibMinlength ops cell maxseg bs ns)

/-- The character-angle calibration of `generate_line_config` when no
`theta` list is supplied: record the trial closure length of every slip
system at every grid angle; per system take the minimum valid length;
raise when the maximum of those exceeds `10*Lbox` or some system has no
valid candidate; otherwise pick per system the angle whose recorded
length is closest to that maximum. -/
def calibrate (ops : ScalarOps) (cell : Cell) (Lbox maxseg : ℚ)
    (bs ns : List Vec3) : Except String (List ℚ) :=
  if 10 * Lbox < calibMax ops cell maxseg bs ns ∨
      minQ (calibMinlength ops cell maxseg bs ns) < 0 then
    .error "Error: cannot find appropriate line to insert"
  else
    .ok ((calibRows ops cell maxseg bs ns).map fun row =>
      theta_grid (margmin (fun v => |v - calibMax ops cell maxseg bs ns|) row))

/-- The character angle used for line `i`:
`theta_sys[isys, ithe[i - idip*nsys]]` with `isys = i % nsys` and
`idip = floor(i/nsys) % 2`. -/
def lineTheta (thetaSys : List (List ℚ)) (ithe : Nat → Nat) (nsys i : Nat) : ℚ :=
  (thetaSys.getD (i % nsys) []).getD (ithe (i - ((i / nsys) % 2) * nsys)) 0

/-- The per-line data computed by the insertion loop of
`generate_line_config`: the slip system's Burgers vector and plane,
and the signed line direction
`lsign * (cos(theta)*burg + sin(theta)*edir)` with
`edir = normalize(cross(plane, burg))` and `lsign = 1 - 2*idip`. -/
def lineArgs (ops : ScalarOps) (bs ns : List Vec3)
    (thetaSys : List (List ℚ)) (ithe : Nat → Nat) (i : Nat) :
    Vec3 × Vec3 × Vec3 :=
  let nsys := bs.length
  let isys := i % nsys
  let burg := bs.getD isys 0
  let plane := ns.getD isys 0
  let idip := (i / nsys) % 2
  let lsign : ℚ := 1 - 2 * (idip : ℚ)
  let edir := unit ops (cross plane burg)
  let θ := lineTheta thetaSys ithe nsys i
  let ldir := ops.cosd θ • burg + ops.sind θ • edir
  (burg, plane, lsign • ldir)

/-- Shallow embedding of `generate_line_config`.  Randomness
(`np.random.rand` for start positions, `np.random.randint` for angle
indices) is modelled by the pre-drawn oracle arrays `posDraw` and
`itheDraw`, mirroring the source, which draws both arrays before the
insertion loop.  `raise ValueError` is modelled by `Except.error`. -/
def generate_line_config (ops : ScalarOps) (crystal : String)
    (Lbox : ℚ) (numLines : Nat) (theta : Option (List ℚ)) (maxseg : ℚ)
    (posDraw : Nat → Vec3) (itheDraw : Nat → Nat) :
    Except String (Cell × List Node × List Seg) :=
  match (if crystal = "BCC" ∨ crystal = "bcc" then some (bccB, bccN)
         else if crystal = "FCC" ∨ crystal = "fcc" then some (fccB, fccN)
         else none) with
  | none => .error ("Error: unknown crystal type = " ++ crystal)
  | some bn =>
      let bs := normalizeRows ops bn.1
      let ns := normalizeRows ops bn.2
      let cell := cellCube Lbox
      let thetaSysE : Except String (List (List ℚ)) :=
        match theta with
        | none => (calibrate ops cell Lbox maxseg bs ns).map fun ths =>
            ths.map fun θ => [θ]
        | some ts => .ok (List.replicate bs.length ts)
      match thetaSysE with
      | .error e => .error e
      | .ok thetaSys =>
          let pos := fun i => cell.origin + matVec cell.h (posDraw i)
          let step := fun (st : List Node × List Seg) (i : Nat) =>
            let args := lineArgs ops bs ns thetaSys itheDraw i
            match insert_infinite_line ops cell st.1 st.2 args.1 args.2.1
                (pos i) 0 (some args.2.2) maxseg false with
            | (.lists nodes segs, _) => (nodes, segs)
            | (.scalar _, _) => st
          let res := (List.range numLines).foldl step ([], [])
          .ok (cell, res.1, res.2)

/-! ## Basic algebraic lemmas for the embedding -/

theorem Vec3.add_def (a b : Vec3) : a + b = ⟨a.x + b.x, a.y + b.y, a.z + b.z⟩ := rfl

theorem Vec3.sub_def (a b : Vec3) : a - b = ⟨a.x - b.x, a.y - b.y, a.z - b.z⟩ := rfl

theorem Vec3.smul_def (c : ℚ) (a : Vec3) : c • a = ⟨c * a.x, c * a.y, c * a.z⟩ := rfl

theorem Vec3.neg_def (a : Vec3) : -a = ⟨-a.x, -a.y, -a.z⟩ := rfl

theorem Vec3.zero_def : (0 : Vec3) = ⟨0, 0, 0⟩ := rfl

theorem Vec3.zero_smul (a : Vec3) : (0 : ℚ) • a = 0 := by
  simp [Vec3.smul_def, Vec3.zero_def]

theorem Vec3.add_zero (a : Vec3) : a + 0 = a := by
  simp [Vec3.add_def, Vec3.zero_def]

theorem Vec3.sub_self (a : Vec3) : a - a = 0 := by
  simp [Vec3.sub_def, Vec3.zero_def]

theorem Vec3.one_smul (a : Vec3) : (1 : ℚ) • a = a := by
  simp [Vec3.smul_def]

theorem Vec3.neg_one_smul (a : Vec3) : (-1 : ℚ) • a = -a := by
  simp [Vec3.smul_def, Vec3.neg_def]

theorem vecMat_zero (m : Mat3) : vecMat 0 m = 0 := by
  simp [vecMat, Vec3.zero_def, Vec3.smul_def, Vec3.add_def]

theorem wrapHalf_zero : wrapHalf 0 = 0 := by
  norm_num [wrapHalf]

theorem wrapVec_zero : wrapVec 0 = 0 := by
  simp [wrapVec, Vec3.zero_def, wrapHalf_zero]

theorem closest_image_self (cell : Cell) (a : Vec3) : closest_image cell a a = a := by
  rw [closest_image, Vec3.sub_self, vecMat_zero, wrapVec_zero, vecMat_zero,
    Vec3.add_zero]

/-! ## March loop lemmas -/

theorem marchStep_numnodes (ops : ScalarOps) (cell : Cell) (o ld : Vec3) (s : ℚ)
    (st : MarchState) :
    (marchStep ops cell o ld s st).numnodes = st.numnodes + 1 := by
  simp only [marchStep]
  split <;> rfl

theorem march_numnodes_le (ops : ScalarOps) (cell : Cell) (o ld : Vec3) (s : ℚ) :
    ∀ (fuel : Nat) (st : MarchState), st.numnodes ≤ maxnodes →
      (march ops cell o ld s fuel st).numnodes ≤ maxnodes := by
  intro fuel
  induction fuel with
  | zero => intro st h; exact h
  | succ fuel ih =>
      intro st h
      rw [march]
      split
      · next hc =>
          refine ih _ ?_
          rw [marchStep_numnodes]
          omega
      · exact h

theorem march_exit (ops : ScalarOps) (cell : Cell) (o ld : Vec3) (s : ℚ) :
    ∀ (fuel : Nat) (st : MarchState), maxnodes ≤ st.numnodes + fuel →
      (march ops cell o ld s fuel st).meet = true ∨
        maxnodes ≤ (march ops cell o ld s fuel st).numnodes := by
  intro fuel
  induction fuel with
  | zero => intro st h; right; simpa [march] using h
  | succ fuel ih =>
      intro st h
      rw [march]
      split
      · next hc =>
          refine ih _ ?_
          rw [marchStep_numnodes]
          omega
      · next hc =>
          rcases Decidable.not_and_iff_or_not.mp hc with hm | hn
          · left; simpa using hm
          · right; omega

/-- The trial-mode return value of `insert_infinite_line`, as a single
equation: the scalar is `-1` on the step-bound path and the distance
from the origin to the closure point otherwise, and the node/segment
lists do not appear in the result. -/
theorem insert_trial_eq (ops : ScalarOps) (cell : Cell) (nodes : List Node)
    (segs : List Seg) (burg plane origin : Vec3) (theta : ℚ)
    (linedir : Option Vec3) (maxseg : ℚ) :
    insert_infinite_line ops cell nodes segs burg plane origin theta linedir maxseg true =
      (.scalar
        (if (marchOf ops cell burg plane origin theta linedir maxseg).numnodes = maxnodes
         then -1
         else ops.sqrt (quadr
           ((marchOf ops cell burg plane origin theta linedir maxseg).originpbc - origin))),
       orthoWarns ops burg plane) := by
  by_cases h : (marchOf ops cell burg plane origin theta linedir maxseg).numnodes = maxnodes <;>
    simp [insert_infinite_line, h]

/-- Oracle with identically zero square root and trigonometric
functions; used to exhibit a call of `insert_infinite_line` whose march
never detects closure (`seglength = 0`, so the distance test
`dist < seglength` is never satisfied). -/
def opsZero : ScalarOps where
  sqrt := fun _ => 0
  cosd := fun _ => 0
  sind := fun _ => 0

theorem seglengthOf_opsZero (cell : Cell) (maxseg : ℚ) (h : ¬ 0 < maxseg) :
    seglengthOf opsZero cell maxseg = 0 := by
  simp [seglengthOf, nrm, opsZero, h]

theorem march_opsZero (cell : Cell) (ld : Vec3) :
    ∀ (fuel k : Nat), k + fuel ≤ maxnodes →
      march opsZero cell 0 ld 0 fuel ⟨0, 0, k, false⟩ = ⟨0, 0, k + fuel, false⟩ := by
  intro fuel
  induction fuel with
  | zero => intro k h; simp [march]
  | succ fuel ih =>
      intro k h
      have hk : k < maxnodes := by omega
      have hstep : marchStep opsZero cell 0 ld 0 ⟨0, 0, k, false⟩ = ⟨0, 0, k + 1, false⟩ := by
        simp [marchStep, Vec3.zero_smul, Vec3.add_zero, closest_image_self, opsZero,
          lt_irrefl]
      rw [march]
      rw [if_pos ⟨rfl, hk⟩]
      rw [hstep]
      have hsum : k + (fuel + 1) = (k + 1) + fuel := by omega
      rw [hsum]
      exact ih (k + 1) (by omega)

theorem marchOf_opsZero_numnodes (cell : Cell) (burg plane : Vec3) (theta : ℚ)
    (linedir : Option Vec3) :
    (marchOf opsZero cell burg plane 0 theta linedir (-1)).numnodes = maxnodes := by
  rw [marchOf, seglengthOf_opsZero cell (-1) (by norm_num)]
  rw [march_opsZero cell _ maxnodes 0 (by omega)]
  simp

/-! ## Claims about insert_infinite_line -/

/-- C1.  For every call to `insert_infinite_line`, the closure march
loop executes at most 1000 steps (`numnodes ≤ maxnodes` at exit, and
the loop guard is indeed exhausted: either closure was met or the bound
was reached); when the step bound is reached the function returns the
sentinel `-1.0` if `trial` is true, and if `trial` is false it emits
the too-long warning and returns the `nodes` and `segs` lists
unchanged.  The embedded function is total, so no exception is raised
in either case. -/
theorem insert_infinite_line_bound (ops : ScalarOps) (cell : Cell)
    (nodes : List Node) (segs : List Seg) (burg plane origin : Vec3)
    (theta : ℚ) (linedir : Option Vec3) (maxseg : ℚ) :
    (marchOf ops cell burg plane origin theta linedir maxseg).numnodes ≤ maxnodes ∧
    ((marchOf ops cell burg plane origin theta linedir maxseg).meet = true ∨
      (marchOf ops cell burg plane origin theta linedir maxseg).numnodes = maxnodes) ∧
    ((marchOf ops cell burg plane origin theta linedir maxseg).numnodes = maxnodes →
      insert_infinite_line ops cell nodes segs burg plane origin theta linedir maxseg true =
        (.scalar (-1), orthoWarns ops burg plane) ∧
      insert_infinite_line ops cell nodes segs burg plane origin theta linedir maxseg false =
        (.lists nodes segs, orthoWarns ops burg plane ++ [tooLongMsg])) := by
  have hle : (marchOf ops cell burg plane origin theta linedir maxseg).numnodes ≤ maxnodes := by
    rw [marchOf]
    exact march_numnodes_le _ _ _ _ _ maxnodes _ (Nat.zero_le _)
  refine ⟨hle, ?_, ?_⟩
  · have hex := march_exit ops cell origin
      (lineDirOf ops burg (unit ops plane) theta linedir)
      (seglengthOf ops cell maxseg) maxnodes ⟨origin, origin, 0, false⟩ (by omega)
    rw [marchOf]
    rcases hex with hm | hn
    · exact Or.inl hm
    · refine Or.inr (le_antisymm ?_ hn)
      rw [marchOf] at hle
      exact hle
  · intro h
    constructor <;> simp [insert_infinite_line, h]

/-- Witness for C1: a concrete call (zero-square-root oracle, unit
cell) whose march reaches the 1000-step bound, with the sentinel and
the unchanged-lists returns observed. -/
theorem insert_infinite_line_bound_witness :
    (marchOf opsZero (cellCube 1) ⟨1, 0, 0⟩ ⟨0, 0, 1⟩ 0 0 (some ⟨1, 0, 0⟩) (-1)).numnodes
        = maxnodes ∧
    insert_infinite_line opsZero (cellCube 1) [] [] ⟨1, 0, 0⟩ ⟨0, 0, 1⟩ 0 0
        (some ⟨1, 0, 0⟩) (-1) true = (.scalar (-1), orthoWarns opsZero ⟨1, 0, 0⟩ ⟨0, 0, 1⟩) ∧
    insert_infinite_line opsZero (cellCube 1) [] [] ⟨1, 0, 0⟩ ⟨0, 0, 1⟩ 0 0
        (some ⟨1, 0, 0⟩) (-1) false =
      (.lists [] [], orthoWarns opsZero ⟨1, 0, 0⟩ ⟨0, 0, 1⟩ ++ [tooLongMsg]) := by
  have h := marchOf_opsZero_numnodes (cellCube 1) ⟨1, 0, 0⟩ ⟨0, 0, 1⟩ 0 (some ⟨1, 0, 0⟩)
  have hc := (insert_infinite_line_bound opsZero (cellCube 1) [] [] ⟨1, 0, 0⟩ ⟨0, 0, 1⟩ 0 0
    (some ⟨1, 0, 0⟩) (-1)).2.2 h
  exact ⟨h, hc.1, hc.2⟩

/-- C6.  With `trial = True`, `insert_infinite_line` returns only the
scalar periodic length (the distance from the origin to the closure
point, or the sentinel `-1.0` on the step-bound path); the result
carries no node or segment data, so the caller's lists are left exactly
as passed (the embedding is pure, and the trial branch never touches
them). -/
theorem insert_trial_pure (ops : ScalarOps) (cell : Cell) (nodes : List Node)
    (segs : List Seg) (burg plane origin : Vec3) (theta : ℚ)
    (linedir : Option Vec3) (maxseg : ℚ) :
    insert_infinite_line ops cell nodes segs burg plane origin theta linedir maxseg true =
      (.scalar
        (if (marchOf ops cell burg plane origin theta linedir maxseg).numnodes = maxnodes
         then -1
         else ops.sqrt (quadr
           ((marchOf ops cell burg plane origin theta linedir maxseg).originpbc - origin))),
       orthoWarns ops burg plane) :=
  insert_trial_eq ops cell nodes segs burg plane origin theta linedir maxseg

/-- Counterexample for C2: `insert_infinite_line` normalizes the plane
argument before tagging segments, so with plane argument `(0,0,2)` all
six emitted segments carry `(0,0,1)`, which differs from the call's
argument. -/
theorem insert_plane_not_argument_cex :
    (segsOf (insert_infinite_line ratExact (cellCube 1) [] [] ⟨1, 0, 0⟩ ⟨0, 0, 2⟩ 0 0
        (some ⟨1, 0, 0⟩) (-1) false).1).map Seg.plane =
      List.replicate 6 ⟨0, 0, 1⟩ ∧
    (⟨0, 0, 1⟩ : Vec3) ≠ ⟨0, 0, 2⟩ := by
  exact ⟨by decide, by decide⟩

/-- C2 (amended).  When the march detects closure (`numnodes` below the
bound) in non-trial mode, `insert_infinite_line` appends exactly
`numnodes` nodes at positions `origin + (i/numnodes)*(closure - origin)`
for `i = 0..numnodes-1`, each tagged `UNCONSTRAINED`, and exactly
`numnodes` segments joining consecutive new indices with the last
wrapping back to `istart`, each carrying the call's Burgers vector and
the call's plane normal rescaled to unit length (`plane/|plane|`, not
the raw argument). -/
theorem insert_nontrial_inserts (ops : ScalarOps) (cell : Cell)
    (nodes : List Node) (segs : List Seg) (burg plane origin : Vec3)
    (theta : ℚ) (linedir : Option Vec3) (maxseg : ℚ)
    (h : (marchOf ops cell burg plane origin theta linedir maxseg).numnodes ≠ maxnodes) :
    insert_infinite_line ops cell nodes segs burg plane origin theta linedir maxseg false =
      (.lists
        (nodes ++ (List.range
            (marchOf ops cell burg plane origin theta linedir maxseg).numnodes).map fun i =>
          Node.mk
            (origin + ((i : ℚ) /
                ((marchOf ops cell burg plane origin theta linedir maxseg).numnodes : ℚ)) •
              ((marchOf ops cell burg plane origin theta linedir maxseg).originpbc - origin))
            .UNCONSTRAINED)
        (segs ++ (List.range
            (marchOf ops cell burg plane origin theta linedir maxseg).numnodes).map fun i =>
          Seg.mk (nodes.length + i)
            (nodes.length + (i + 1) %
              (marchOf ops cell burg plane origin theta linedir maxseg).numnodes)
            burg (unit ops plane)),
       orthoWarns ops burg plane) := by
  simp [insert_infinite_line, h]

/-- Witness for C2 (amended): the concrete closure insertion of a line
along `x` in the unit cube (`numnodes = 6`). -/
theorem insert_nontrial_inserts_witness :
    (marchOf ratExact (cellCube 1) ⟨1, 0, 0⟩ ⟨0, 0, 2⟩ 0 0 (some ⟨1, 0, 0⟩) (-1)).numnodes
        ≠ maxnodes ∧
    insert_infinite_line ratExact (cellCube 1) [] [] ⟨1, 0, 0⟩ ⟨0, 0, 2⟩ 0 0
        (some ⟨1, 0, 0⟩) (-1) false =
      (.lists
        ([] ++ (List.range
            (marchOf ratExact (cellCube 1) ⟨1, 0, 0⟩ ⟨0, 0, 2⟩ 0 0
              (some ⟨1, 0, 0⟩) (-1)).numnodes).map fun i =>
          Node.mk
            ((0 : Vec3) + ((i : ℚ) /
                ((marchOf ratExact (cellCube 1) ⟨1, 0, 0⟩ ⟨0, 0, 2⟩ 0 0
                  (some ⟨1, 0, 0⟩) (-1)).numnodes : ℚ)) •
              ((marchOf ratExact (cellCube 1) ⟨1, 0, 0⟩ ⟨0, 0, 2⟩ 0 0
                (some ⟨1, 0, 0⟩) (-1)).originpbc - 0))
            .UNCONSTRAINED)
        ([] ++ (List.range
            (marchOf ratExact (cellCube 1) ⟨1, 0, 0⟩ ⟨0, 0, 2⟩ 0 0
              (some ⟨1, 0, 0⟩) (-1)).numnodes).map fun i =>
          Seg.mk ((List.length ([] : List Node)) + i)
            ((List.length ([] : List Node)) + (i + 1) %
              (marchOf ratExact (cellCube 1) ⟨1, 0, 0⟩ ⟨0, 0, 2⟩ 0 0
                (some ⟨1, 0, 0⟩) (-1)).numnodes)
            ⟨1, 0, 0⟩ (unit ratExact ⟨0, 0, 2⟩)),
       orthoWarns ratExact ⟨1, 0, 0⟩ ⟨0, 0, 2⟩) :=
  ⟨by decide,
   insert_nontrial_inserts ratExact (cellCube 1) [] [] ⟨1, 0, 0⟩ ⟨0, 0, 2⟩ 0 0
     (some ⟨1, 0, 0⟩) (-1) (by decide)⟩

/-! ## Claims about the boundary clipping walk -/

theorem getLastD_append_single {α : Type} (l : List α) (a d : α) :
    (l ++ [a]).getLastD d = a := by
  induction l with
  | nil => rfl
  | cons x xs ih =>
      cases xs with
      | nil => rfl
      | cons y ys => simpa using ih

set_option maxRecDepth 8000 in
/-- Counterexample for C3: with the non-symmetric cell matrix
`h = [[1,1/2,0],[0,1,0],[0,0,1]]`, a clipping step that selects facet 3
(axis 0, `s = 1`) re-anchors the new start with the *column*
`h[:,0] = (1,0,0)`, which matches neither `pos + (1-2*eps)*h[0]` nor
`pos - (1-2*eps)*h[0]` for the lattice row `h[0] = (1,1/2,0)`. -/
theorem clip_step_row_shift_cex :
    ((clip_step ⟨⟨⟨1, 1/2, 0⟩, ⟨0, 1, 0⟩, ⟨0, 0, 1⟩⟩, 0⟩ ⟨29/20, 1/2, 1/2⟩
        ⟨23/20, 1/2, 1/2⟩ ⟨29/20, 1/2, 1/2⟩).map
      fun r =>
        decide (r.2.1 ≠ r.1.2 + ((1 - 2 * veps) • (⟨1, 1/2, 0⟩ : Vec3))) &&
        decide (r.2.1 ≠ r.1.2 - ((1 - 2 * veps) • (⟨1, 1/2, 0⟩ : Vec3)))) = some true := by
  decide

/-- C3 (amended).  Whenever the facet-intersection search selects a
facet with parametric intersection `t < 1`, the new start point for the
next iteration equals the intersection point shifted by
`(1 - 2*floor(facet/3)) * (1-2*eps)` times the lattice *column*
`h[:, facet % 3]` of the crossed fractional axis (the column, i.e. the
axis's lattice vector in the clipper's `hinv ⬝ (p - origin)` fractional
convention, not the row of `h`), the sign determined by which of the
two facets on that axis was hit. -/
theorem clip_step_column_shift (cell : Cell) (rn2 r1 r2 pos : Vec3)
    (facet : Nat) (sf : ℚ)
    (h : facet_intersection_position cell.h (matInv cell.h) cell.origin r1 r2 =
      (pos, some facet, sf)) :
    clip_step cell rn2 r1 r2 =
      some ((r1, pos),
        pos + ((1 : ℚ) - 2 * ((facet / 3 : Nat) : ℚ)) •
          ((1 - 2 * veps) • mcol cell.h (facet % 3)),
        closest_image cell
          (pos + ((1 : ℚ) - 2 * ((facet / 3 : Nat) : ℚ)) •
            ((1 - 2 * veps) • mcol cell.h (facet % 3))) rn2) := by
  simp only [clip_step]
  rw [h]
  rfl

set_option maxRecDepth 8000 in
/-- Witness for C3 (amended): the crossing of facet 3 in the unit cube,
with the shift along column `h[:,0]`. -/
theorem clip_step_column_shift_witness :
    facet_intersection_position (cellCube 1).h (matInv (cellCube 1).h)
        (cellCube 1).origin ⟨9/10, 1/2, 1/2⟩ ⟨6/5, 1/2, 1/2⟩ =
      (⟨30000000009/30000000010, 1/2, 1/2⟩, some 3, 1000000000/3000000001) ∧
    clip_step (cellCube 1) ⟨6/5, 1/2, 1/2⟩ ⟨9/10, 1/2, 1/2⟩ ⟨6/5, 1/2, 1/2⟩ =
      some ((⟨9/10, 1/2, 1/2⟩, ⟨30000000009/30000000010, 1/2, 1/2⟩),
        ⟨30000000009/30000000010, 1/2, 1/2⟩ + ((1 : ℚ) - 2 * ((3 / 3 : Nat) : ℚ)) •
          ((1 - 2 * veps) • mcol (cellCube 1).h (3 % 3)),
        closest_image (cellCube 1)
          (⟨30000000009/30000000010, 1/2, 1/2⟩ + ((1 : ℚ) - 2 * ((3 / 3 : Nat) : ℚ)) •
            ((1 - 2 * veps) • mcol (cellCube 1).h (3 % 3))) ⟨6/5, 1/2, 1/2⟩) :=
  ⟨by decide,
   clip_step_column_shift (cellCube 1) ⟨6/5, 1/2, 1/2⟩ ⟨9/10, 1/2, 1/2⟩
     ⟨6/5, 1/2, 1/2⟩ ⟨30000000009/30000000010, 1/2, 1/2⟩ 3 (1000000000/3000000001)
     (by decide)⟩

set_option maxRecDepth 8000 in
/-- Counterexample for C4: a segment whose minimum-image far endpoint
lies outside the box but for which no facet yields a forward
intersection `t < 1` (the walk's `facet < 0` break); the single emitted
sub-segment has its second endpoint outside the box. -/
theorem clip_pieces_inbox_cex :
    clip_segment (cellCube 1) ⟨1/2, 0, 1/2⟩ ⟨1/2, -2/5, 1/2⟩ 10 =
      ([(⟨1/2, 0, 1/2⟩, ⟨1/2, -2/5, 1/2⟩)], .noFacet) ∧
    outside_box (matInv (cellCube 1).h) (cellCube 1).origin ⟨1/2, -2/5, 1/2⟩ = true := by
  exact ⟨by decide, by decide⟩

theorem clip_walk_zero (cell : Cell) (rn2 r1 r2 : Vec3) :
    clip_walk cell rn2 0 r1 r2 = ([], (r1, r2), .fuelOut) := rfl

theorem clip_walk_succ (cell : Cell) (rn2 : Vec3) (fuel : Nat) (r1 r2 : Vec3) :
    clip_walk cell rn2 (fuel + 1) r1 r2 =
      if outside_box (matInv cell.h) cell.origin r2 then
        (clip_step cell rn2 r1 r2).elim ([], (r1, r2), .noFacet) fun pr =>
          let rest := clip_walk cell rn2 fuel pr.2.1 pr.2.2
          (pr.1 :: rest.1, rest.2)
      else ([], (r1, r2), .inBox) := rfl

theorem clip_walk_exit_inBox (cell : Cell) (rn2 : Vec3) :
    ∀ (fuel : Nat) (r1 r2 : Vec3),
      (clip_walk cell rn2 fuel r1 r2).2.2 = .inBox →
      outside_box (matInv cell.h) cell.origin (clip_walk cell rn2 fuel r1 r2).2.1.2 = false := by
  intro fuel
  induction fuel with
  | zero => intro r1 r2 h; rw [clip_walk_zero] at h; exact absurd h (by simp)
  | succ fuel ih =>
      intro r1 r2 h
      by_cases hout : outside_box (matInv cell.h) cell.origin r2
      · cases hstep : clip_step cell rn2 r1 r2 with
        | none =>
            rw [clip_walk_succ, if_pos hout, hstep] at h
            simp [Option.elim] at h
        | some v =>
            rw [clip_walk_succ, if_pos hout, hstep] at h ⊢
            simp only [Option.elim] at h ⊢
            exact ih v.2.1 v.2.2 h
      · rw [clip_walk_succ, if_neg hout] at h ⊢
        simpa using hout

/-- C4 (amended).  For a segment processed with `pbc_wrap` enabled,
whenever the clipping walk's loop exits because the outside test on the
far endpoint returned false, the final emitted sub-segment's second
endpoint satisfies the in-box predicate (all fractional coordinates in
`[-eps, 1+eps]`).  Endpoints of other emitted sub-segments carry no such
guarantee (see the counterexample: the no-forward-facet break emits an
out-of-box endpoint). -/
theorem clip_walk_inbox_exit (cell : Cell) (rn1 rn2 : Vec3) (fuel : Nat)
    (h : (clip_segment cell rn1 rn2 fuel).2 = .inBox) :
    outside_box (matInv cell.h) cell.origin
      ((clip_segment cell rn1 rn2 fuel).1.getLastD (0, 0)).2 = false := by
  rw [clip_segment] at h ⊢
  rw [getLastD_append_single]
  exact clip_walk_exit_inBox cell rn2 fuel _ _ h

set_option maxRecDepth 8000 in
/-- Witness for C4 (amended): a one-crossing walk in the unit cube that
exits with the outside test false; the last emitted endpoint is in
box. -/
theorem clip_walk_inbox_exit_witness :
    (clip_segment (cellCube 1) ⟨9/10, 1/2, 1/2⟩ ⟨6/5, 1/2, 1/2⟩ 5).2 = .inBox ∧
    outside_box (matInv (cellCube 1).h) (cellCube 1).origin
      ((clip_segment (cellCube 1) ⟨9/10, 1/2, 1/2⟩ ⟨6/5, 1/2, 1/2⟩ 5).1.getLastD (0, 0)).2
      = false :=
  ⟨by decide,
   clip_walk_inbox_exit (cellCube 1) ⟨9/10, 1/2, 1/2⟩ ⟨6/5, 1/2, 1/2⟩ 5 (by decide)⟩

/-- C8.  If a segment's minimum-image-reduced second endpoint lies
inside the cell box (the outside test is false, i.e. no fractional
coordinate below `-eps` or above `1+eps`), the clipping walk emits
exactly one piece, identical to the segment's minimum-image-reduced
endpoint pair, and exits with the in-box test. -/
theorem clip_inside_roundtrip (cell : Cell) (rn1 rn2 : Vec3) (fuel : Nat)
    (h : outside_box (matInv cell.h) cell.origin
      (closest_image cell (closest_image cell (center cell) rn1) rn2) = false) :
    clip_segment cell rn1 rn2 (fuel + 1) =
      ([(closest_image cell (center cell) rn1,
         closest_image cell (closest_image cell (center cell) rn1) rn2)], .inBox) := by
  simp only [clip_segment]
  rw [clip_walk_succ, h]
  simp

/-- Witness for C8: a fully interior segment in the unit cube. -/
theorem clip_inside_roundtrip_witness :
    outside_box (matInv (cellCube 1).h) (cellCube 1).origin
      (closest_image (cellCube 1)
        (closest_image (cellCube 1) (center (cellCube 1)) ⟨1/2, 1/2, 1/2⟩)
        ⟨3/5, 1/2, 1/2⟩) = false ∧
    clip_segment (cellCube 1) ⟨1/2, 1/2, 1/2⟩ ⟨3/5, 1/2, 1/2⟩ 1 =
      ([(closest_image (cellCube 1) (center (cellCube 1)) ⟨1/2, 1/2, 1/2⟩,
         closest_image (cellCube 1)
           (closest_image (cellCube 1) (center (cellCube 1)) ⟨1/2, 1/2, 1/2⟩)
           ⟨3/5, 1/2, 1/2⟩)], .inBox) :=
  ⟨by decide, clip_inside_roundtrip (cellCube 1) ⟨1/2, 1/2, 1/2⟩ ⟨3/5, 1/2, 1/2⟩ 0 (by decide)⟩

/-! ## Claims about generate_line_config -/

/-- C7.  For every line index `i`, the insertion loop of
`generate_line_config` uses slip system `i % nsys`, computes the
direction `cos(theta)*b + sin(theta)*e` with
`e = normalize(cross(plane, burg))`, and multiplies it by `+1` when
`floor(i/nsys)` is even and `-1` when it is odd, so consecutive blocks
of `nsys` lines cover each system once with alternating orientation. -/
theorem lineArgs_spec (ops : ScalarOps) (bs ns : List Vec3)
    (thetaSys : List (List ℚ)) (ithe : Nat → Nat) (i : Nat) :
    lineArgs ops bs ns thetaSys ithe i =
      (bs.getD (i % bs.length) 0,
       ns.getD (i % bs.length) 0,
       (if (i / bs.length) % 2 = 0 then (1 : ℚ) else -1) •
         (ops.cosd (lineTheta thetaSys ithe bs.length i) • bs.getD (i % bs.length) 0 +
          ops.sind (lineTheta thetaSys ithe bs.length i) •
            unit ops (cross (ns.getD (i % bs.length) 0) (bs.getD (i % bs.length) 0)))) := by
  unfold lineArgs
  rcases Nat.mod_two_eq_zero_or_one (i / bs.length) with hp | hp <;>
    (simp [hp]; try norm_num)

/-- C10.  For every line index `i` with dipole parity
`floor(i/nsys) % 2 = 1`, the character angle of line `i` is looked up
at pre-drawn index position `i - nsys`, hence equals the character
angle of line `i - nsys` (which has parity 0); both lines are on the
same slip system `i % nsys`, and their signed line directions are
exactly opposite. -/
theorem lineArgs_dipole (ops : ScalarOps) (bs ns : List Vec3)
    (thetaSys : List (List ℚ)) (ithe : Nat → Nat) (i : Nat)
    (hn : 0 < bs.length) (hp : (i / bs.length) % 2 = 1) :
    bs.length ≤ i ∧
    ((i - bs.length) / bs.length) % 2 = 0 ∧
    i % bs.length = (i - bs.length) % bs.length ∧
    lineTheta thetaSys ithe bs.length i = lineTheta thetaSys ithe bs.length (i - bs.length) ∧
    lineArgs ops bs ns thetaSys ithe i =
      ((lineArgs ops bs ns thetaSys ithe (i - bs.length)).1,
       (lineArgs ops bs ns thetaSys ithe (i - bs.length)).2.1,
       -((lineArgs ops bs ns thetaSys ithe (i - bs.length)).2.2)) := by
  have hle : bs.length ≤ i := by
    by_contra hlt
    push_neg at hlt
    rw [Nat.div_eq_of_lt hlt] at hp
    simp at hp
  obtain ⟨k, rfl⟩ : ∃ k, i = k + bs.length := ⟨i - bs.length, by omega⟩
  have hsub : k + bs.length - bs.length = k := by omega
  have hmod : (k + bs.length) % bs.length = k % bs.length := Nat.add_mod_right k bs.length
  have hdiv : (k + bs.length) / bs.length = k / bs.length + 1 := Nat.add_div_right k hn
  have hpar : k / bs.length % 2 = 0 := by
    rw [hdiv] at hp
    omega
  have h1 : (k / bs.length + 1) % 2 = 1 := by omega
  have htheta : lineTheta thetaSys ithe bs.length (k + bs.length) =
      lineTheta thetaSys ithe bs.length k := by
    unfold lineTheta
    rw [hmod, hdiv, h1, hpar]
    simp
  refine ⟨by omega, by rw [hsub, hpar], by rw [hsub, hmod], by rw [hsub]; exact htheta, ?_⟩
  unfold lineArgs
  simp only [hsub, hmod, hdiv, hpar, h1, htheta]
  norm_num [Vec3.one_smul, Vec3.neg_one_smul]

/-- C9.  Calling `generate_line_config` with a crystal identifier other
than the recognized BCC/FCC spellings returns the configuration error
(`ValueError` in the source) with the unknown-crystal message, for
every choice of the random-draw oracles: the result does not depend on
the random state, no cell is built, and no nodes or segments are
emitted (the error value carries none). -/
theorem generate_unknown_crystal_error (ops : ScalarOps) (crystal : String)
    (Lbox : ℚ) (numLines : Nat) (theta : Option (List ℚ)) (maxseg : ℚ)
    (posDraw : Nat → Vec3) (itheDraw : Nat → Nat)
    (h1 : crystal ≠ "BCC") (h2 : crystal ≠ "bcc")
    (h3 : crystal ≠ "FCC") (h4 : crystal ≠ "fcc") :
    generate_line_config ops crystal Lbox numLines theta maxseg posDraw itheDraw =
      .error ("Error: unknown crystal type = " ++ crystal) := by
  simp [generate_line_config, h1, h2, h3, h4]

/-- Witness for C9: the unknown identifier "abc". -/
theorem generate_unknown_crystal_error_witness :
    ("abc" : String) ≠ "BCC" ∧ ("abc" : String) ≠ "bcc" ∧
    ("abc" : String) ≠ "FCC" ∧ ("abc" : String) ≠ "fcc" ∧
    generate_line_config ratExact "abc" 1 24 none (-1) (fun _ => 0) (fun _ => 0) =
      .error ("Error: unknown crystal type = " ++ "abc") :=
  ⟨by decide, by decide, by decide, by decide,
   generate_unknown_crystal_error ratExact "abc" 1 24 none (-1) (fun _ => 0) (fun _ => 0)
     (by decide) (by decide) (by decide) (by decide)⟩

/-! ## List helper lemmas for the calibration claim -/

theorem foldl_min_le_seed (l : List ℚ) : ∀ (a : ℚ), List.foldl min a l ≤ a := by
  induction l with
  | nil => intro a; exact le_refl a
  | cons x xs ih =>
      intro a
      calc List.foldl min (min a x) xs ≤ min a x := ih (min a x)
        _ ≤ a := min_le_left a x

theorem foldl_min_le_mem (l : List ℚ) : ∀ (a b : ℚ), b ∈ l → List.foldl min a l ≤ b := by
  induction l with
  | nil => intro a b hb; cases hb
  | cons x xs ih =>
      intro a b hb
      rcases List.mem_cons.mp hb with rfl | hb
      · calc List.foldl min (min a b) xs ≤ min a b := foldl_min_le_seed xs (min a b)
          _ ≤ b := min_le_right a b
      · exact ih (min a x) b hb

theorem foldl_min_mem (l : List ℚ) : ∀ (a : ℚ),
    List.foldl min a l = a ∨ List.foldl min a l ∈ l := by
  induction l with
  | nil => intro a; exact Or.inl rfl
  | cons x xs ih =>
      intro a
      rw [List.foldl_cons]
      rcases ih (min a x) with h | h
      · rw [h]
        rcases min_cases a x with ⟨hm, _⟩ | ⟨hm, _⟩
        · exact Or.inl hm
        · exact Or.inr (by rw [hm]; exact List.mem_cons_self x xs)
      · exact Or.inr (List.mem_cons_of_mem x h)

theorem foldl_min_lt_iff (l : List ℚ) : ∀ (a c : ℚ),
    List.foldl min a l < c ↔ a < c ∨ ∃ x ∈ l, x < c := by
  induction l with
  | nil => intro a c; simp
  | cons x xs ih =>
      intro a c
      rw [List.foldl_cons, ih (min a x) c]
      constructor
      · rintro (h | ⟨y, hy, hyc⟩)
        · rcases min_lt_iff.mp h with h | h
          · exact Or.inl h
          · exact Or.inr ⟨x, List.mem_cons_self x xs, h⟩
        · exact Or.inr ⟨y, List.mem_cons_of_mem x hy, hyc⟩
      · rintro (h | ⟨y, hy, hyc⟩)
        · exact Or.inl (min_lt_iff.mpr (Or.inl h))
        · rcases List.mem_cons.mp hy with rfl | hy
          · exact Or.inl (min_lt_iff.mpr (Or.inr hyc))
          · exact Or.inr ⟨y, hy, hyc⟩

theorem le_foldl_max_seed (l : List ℚ) : ∀ (a : ℚ), a ≤ List.foldl max a l := by
  induction l with
  | nil => intro a; exact le_refl a
  | cons x xs ih =>
      intro a
      calc a ≤ max a x := le_max_left a x
        _ ≤ List.foldl max (max a x) xs := ih (max a x)

theorem le_foldl_max_mem (l : List ℚ) : ∀ (a b : ℚ), b ∈ l → b ≤ List.foldl max a l := by
  induction l with
  | nil => intro a b hb; cases hb
  | cons x xs ih =>
      intro a b hb
      rcases List.mem_cons.mp hb with rfl | hb
      · calc b ≤ max a b := le_max_right a b
          _ ≤ List.foldl max (max a b) xs := le_foldl_max_seed xs (max a b)
      · exact ih (max a x) b hb

theorem minQ_neg_iff (l : List ℚ) : minQ l < 0 ↔ ∃ x ∈ l, x < 0 := by
  cases l with
  | nil => simp [minQ]
  | cons x xs =>
      rw [minQ, foldl_min_lt_iff]
      constructor
      · rintro (h | ⟨y, hy, hyc⟩)
        · exact ⟨x, List.mem_cons_self x xs, h⟩
        · exact ⟨y, List.mem_cons_of_mem x hy, hyc⟩
      · rintro ⟨y, hy, hyc⟩
        rcases List.mem_cons.mp hy with rfl | hy
        · exact Or.inl hyc
        · exact Or.inr ⟨y, hy, hyc⟩

theorem mem_le_maxQ (l : List ℚ) (x : ℚ) (hx : x ∈ l) : x ≤ maxQ l := by
  cases l with
  | nil => cases hx
  | cons y ys =>
      rw [maxQ]
      rcases List.mem_cons.mp hx with rfl | hx
      · exact le_foldl_max_seed ys x
      · exact le_foldl_max_mem ys y x hx

theorem all_mem_iff_getD {α : Type} (l : List α) (d : α) (P : α → Prop) :
    (∀ x ∈ l, P x) ↔ ∀ t, t < l.length → P (l.getD t d) := by
  constructor
  · intro h t ht
    rw [List.getD_eq_getElem l d ht]
    exact h _ (List.getElem_mem ht)
  · intro h x hx
    rcases List.mem_iff_getElem.mp hx with ⟨i, hi, rfl⟩
    rw [← List.getD_eq_getElem l d hi]
    exact h i hi

theorem exists_mem_iff_getD {α : Type} (l : List α) (d : α) (P : α → Prop) :
    (∃ x ∈ l, P x) ↔ ∃ t, t < l.length ∧ P (l.getD t d) := by
  constructor
  · rintro ⟨x, hx, hP⟩
    rcases List.mem_iff_getElem.mp hx with ⟨i, hi, rfl⟩
    exact ⟨i, hi, by rwa [List.getD_eq_getElem l d hi]⟩
  · rintro ⟨t, ht, hP⟩
    exact ⟨l.getD t d, by rw [List.getD_eq_getElem l d ht]; exact List.getElem_mem ht, hP⟩

theorem getD_map_of_lt {α β : Type} (f : α → β) (l : List α) (i : Nat)
    (d : β) (d2 : α) (h : i < l.length) :
    (l.map f).getD i d = f (l.getD i d2) := by
  rw [List.getD_eq_getElem _ _ (by simpa using h), List.getD_eq_getElem _ _ h,
    List.getElem_map]

/-! ## minRowValid and margmin lemmas -/

theorem minRowValid_eq (l : List ℚ) :
    minRowValid l =
      match l.filter (fun v => decide (0 ≤ v)) with
      | [] => -1
      | x :: xs => List.foldl min x xs := rfl

theorem filter_nonneg_sound (l : List ℚ) (y : ℚ) (ys : List ℚ)
    (hf : l.filter (fun v => decide (0 ≤ v)) = y :: ys) :
    y ∈ l ∧ 0 ≤ y ∧ ∀ z ∈ ys, (0 : ℚ) ≤ z ∧ z ∈ l := by
  have hy : y ∈ l.filter (fun v => decide (0 ≤ v)) := by
    rw [hf]; exact List.mem_cons_self y ys
  have hyl := List.mem_filter.mp hy
  refine ⟨hyl.1, by simpa using hyl.2, ?_⟩
  intro z hz
  have : z ∈ l.filter (fun v => decide (0 ≤ v)) := by
    rw [hf]; exact List.mem_cons_of_mem y hz
  have h2 := List.mem_filter.mp this
  exact ⟨by simpa using h2.2, h2.1⟩

theorem minRowValid_neg_iff (l : List ℚ) :
    minRowValid l < 0 ↔ ∀ x ∈ l, x < 0 := by
  cases hf : l.filter (fun v => decide (0 ≤ v)) with
  | nil =>
      have hval : minRowValid l = -1 := by rw [minRowValid_eq, hf]
      rw [hval]
      constructor
      · intro _ x hx
        by_contra hge
        push_neg at hge
        have : x ∈ l.filter (fun v => decide (0 ≤ v)) :=
          List.mem_filter.mpr ⟨hx, by simpa using hge⟩
        rw [hf] at this
        cases this
      · intro _
        norm_num
  | cons y ys =>
      have hval : minRowValid l = List.foldl min y ys := by rw [minRowValid_eq, hf]
      obtain ⟨hyl, hy0, hall⟩ := filter_nonneg_sound l y ys hf
      rw [hval]
      constructor
      · intro hlt
        exfalso
        rcases foldl_min_mem ys y with h | h
        · rw [h] at hlt
          exact absurd hlt (not_lt.mpr hy0)
        · exact absurd hlt (not_lt.mpr (hall _ h).1)
      · intro h
        exact absurd (h y hyl) (not_lt.mpr hy0)

theorem minRowValid_spec (l : List ℚ) (h : ∃ x ∈ l, 0 ≤ x) :
    minRowValid l ∈ l ∧ 0 ≤ minRowValid l ∧
      ∀ x ∈ l, 0 ≤ x → minRowValid l ≤ x := by
  cases hf : l.filter (fun v => decide (0 ≤ v)) with
  | nil =>
      exfalso
      rcases h with ⟨x, hx, hx0⟩
      have : x ∈ l.filter (fun v => decide (0 ≤ v)) :=
        List.mem_filter.mpr ⟨hx, by simpa using hx0⟩
      rw [hf] at this
      cases this
  | cons y ys =>
      have hval : minRowValid l = List.foldl min y ys := by rw [minRowValid_eq, hf]
      obtain ⟨hyl, hy0, hall⟩ := filter_nonneg_sound l y ys hf
      rw [hval]
      refine ⟨?_, ?_, ?_⟩
      · rcases foldl_min_mem ys y with h' | h'
        · rw [h']; exact hyl
        · exact (hall _ h').2
      · rcases foldl_min_mem ys y with h' | h'
        · rw [h']; exact hy0
        · exact (hall _ h').1
      · intro x hx hx0
        have : x ∈ l.filter (fun v => decide (0 ≤ v)) :=
          List.mem_filter.mpr ⟨hx, by simpa using hx0⟩
        rw [hf] at this
        rcases List.mem_cons.mp this with rfl | hxm
        · exact foldl_min_le_seed ys x
        · exact foldl_min_le_mem ys y x hxm

theorem validKeyMin_cons (key : ℚ → ℚ) (x : ℚ) (xs : List ℚ) :
    validKeyMin key (x :: xs) =
      match validKeyMin key xs with
      | none => if 0 ≤ x then some (key x) else none
      | some m => if 0 ≤ x then some (min (key x) m) else some m := rfl

theorem validKeyMin_none_iff (key : ℚ → ℚ) (l : List ℚ) :
    validKeyMin key l = none ↔ ∀ x ∈ l, x < 0 := by
  induction l with
  | nil => simp [validKeyMin]
  | cons x xs ih =>
      cases hv : validKeyMin key xs with
      | none =>
          have hcons : validKeyMin key (x :: xs) =
              if 0 ≤ x then some (key x) else none := by
            rw [validKeyMin_cons, hv]
          rw [hcons]
          rw [hv] at ih
          by_cases hx : (0 : ℚ) ≤ x
          · rw [if_pos hx]
            constructor
            · intro h; cases h
            · intro h
              exact absurd (h x (List.mem_cons_self x xs)) (not_lt.mpr hx)
          · rw [if_neg hx]
            constructor
            · intro _ y hy
              rcases List.mem_cons.mp hy with rfl | hy
              · exact lt_of_not_ge hx
              · exact (ih.mp rfl) y hy
            · intro _; rfl
      | some m =>
          have hcons : validKeyMin key (x :: xs) =
              if 0 ≤ x then some (min (key x) m) else some m := by
            rw [validKeyMin_cons, hv]
          rw [hcons]
          constructor
          · intro h
            by_cases hx : (0 : ℚ) ≤ x <;> simp [hx] at h
          · intro h
            have hnone : validKeyMin key xs = none := by
              rw [ih]
              intro y hy
              exact h y (List.mem_cons_of_mem x hy)
            rw [hnone] at hv
            cases hv

theorem validKeyMin_some_spec (key : ℚ → ℚ) (l : List ℚ) :
    ∀ (m : ℚ), validKeyMin key l = some m →
      (∃ x ∈ l, 0 ≤ x ∧ key x = m) ∧ ∀ x ∈ l, 0 ≤ x → m ≤ key x := by
  induction l with
  | nil => intro m h; cases h
  | cons x xs ih =>
      intro m h
      cases hv : validKeyMin key xs with
      | none =>
          have hcons : validKeyMin key (x :: xs) =
              if 0 ≤ x then some (key x) else none := by
            rw [validKeyMin_cons, hv]
          rw [hcons] at h
          by_cases hx : (0 : ℚ) ≤ x
          · rw [if_pos hx] at h
            injection h with h
            subst h
            refine ⟨⟨x, List.mem_cons_self x xs, hx, rfl⟩, ?_⟩
            intro y hy hy0
            rcases List.mem_cons.mp hy with rfl | hy
            · exact le_refl _
            · exact absurd hy0 (not_le.mpr ((validKeyMin_none_iff key xs).mp hv y hy))
          · rw [if_neg hx] at h
            cases h
      | some mprev =>
          have hcons : validKeyMin key (x :: xs) =
              if 0 ≤ x then some (min (key x) mprev) else some mprev := by
            rw [validKeyMin_cons, hv]
          rw [hcons] at h
          rcases ih mprev hv with ⟨⟨y, hy, hy0, hkey⟩, hmin⟩
          by_cases hx : (0 : ℚ) ≤ x
          · rw [if_pos hx] at h
            injection h with h
            subst h
            constructor
            · rcases le_total (key x) mprev with hle | hle
              · exact ⟨x, List.mem_cons_self x xs, hx, (min_eq_left hle).symm⟩
              · exact ⟨y, List.mem_cons_of_mem x hy, hy0, by rw [hkey, min_eq_right hle]⟩
            · intro z hz hz0
              rcases List.mem_cons.mp hz with rfl | hz
              · exact min_le_left _ _
              · exact le_trans (min_le_right _ _) (hmin z hz hz0)
          · rw [if_neg hx] at h
            injection h with h
            subst h
            constructor
            · exact ⟨y, List.mem_cons_of_mem x hy, hy0, hkey⟩
            · intro z hz hz0
              rcases List.mem_cons.mp hz with rfl | hz
              · exact absurd hz0 (not_le.mpr (lt_of_not_ge hx))
              · exact hmin z hz hz0

theorem margmin_cons (key : ℚ → ℚ) (x : ℚ) (xs : List ℚ) :
    margmin key (x :: xs) =
      match validKeyMin key xs with
      | none => 0
      | some m => if 0 ≤ x ∧ key x ≤ m then 0 else margmin key xs + 1 := rfl

theorem margmin_spec (key : ℚ → ℚ) : ∀ (l : List ℚ), (∃ x ∈ l, 0 ≤ x) →
    margmin key l < l.length ∧ 0 ≤ l.getD (margmin key l) 0 ∧
      ∀ t, t < l.length → 0 ≤ l.getD t 0 →
        key (l.getD (margmin key l) 0) ≤ key (l.getD t 0) := by
  intro l
  induction l with
  | nil => intro h; rcases h with ⟨x, hx, _⟩; cases hx
  | cons x xs ih =>
      intro h
      cases hv : validKeyMin key xs with
      | none =>
          have hm : margmin key (x :: xs) = 0 := by rw [margmin_cons, hv]
          have hxs : ∀ y ∈ xs, y < 0 := (validKeyMin_none_iff key xs).mp hv
          have hx0 : (0 : ℚ) ≤ x := by
            rcases h with ⟨y, hy, hy0⟩
            rcases List.mem_cons.mp hy with rfl | hy
            · exact hy0
            · exact absurd hy0 (not_le.mpr (hxs y hy))
          rw [hm]
          refine ⟨by simp, by simpa using hx0, ?_⟩
          intro t ht ht0
          cases t with
          | zero => exact le_refl _
          | succ s =>
              exfalso
              rw [List.getD_cons_succ] at ht0
              have hs : s < xs.length := by simpa using ht
              rw [List.getD_eq_getElem xs 0 hs] at ht0
              exact absurd ht0 (not_le.mpr (hxs _ (List.getElem_mem hs)))
      | some m =>
          have hm : margmin key (x :: xs) =
              if 0 ≤ x ∧ key x ≤ m then 0 else margmin key xs + 1 := by
            rw [margmin_cons, hv]
          rcases validKeyMin_some_spec key xs m hv with ⟨⟨y, hy, hy0, hkey⟩, hmin⟩
          rw [hm]
          by_cases hc : 0 ≤ x ∧ key x ≤ m
          · rw [if_pos hc]
            refine ⟨by simp, by simpa using hc.1, ?_⟩
            intro t ht ht0
            cases t with
            | zero => exact le_refl _
            | succ s =>
                rw [List.getD_cons_zero, List.getD_cons_succ]
                rw [List.getD_cons_succ] at ht0
                have hs : s < xs.length := by simpa using ht
                refine le_trans hc.2 (hmin _ ?_ ht0)
                rw [List.getD_eq_getElem xs 0 hs]
                exact List.getElem_mem hs
          · rw [if_neg hc]
            have hxs : ∃ z ∈ xs, (0 : ℚ) ≤ z := ⟨y, hy, hy0⟩
            rcases ih hxs with ⟨ihl, ih0, ihmin⟩
            refine ⟨by simpa using ihl, by simpa using ih0, ?_⟩
            intro t ht ht0
            cases t with
            | zero =>
                rw [List.getD_cons_succ, List.getD_cons_zero]
                rw [List.getD_cons_zero] at ht0
                have hkx : m < key x := by
                  rcases Decidable.not_and_iff_or_not.mp hc with h' | h'
                  · exact absurd ht0 h'
                  · exact lt_of_not_ge h'
                rcases List.mem_iff_getElem.mp hy with ⟨j, hj, rfl⟩
                have hyD : xs.getD j 0 = xs[j] := List.getD_eq_getElem xs 0 hj
                calc key (xs.getD (margmin key xs) 0) ≤ key (xs.getD j 0) :=
                      ihmin j hj (by rwa [hyD])
                  _ = m := by rw [hyD, hkey]
                  _ ≤ key x := le_of_lt hkx
            | succ s =>
                rw [List.getD_cons_succ] at ht0 ⊢
                exact ihmin s (by simpa using ht) ht0

/-! ## Calibration lemmas -/

theorem trialLen_eq (ops : ScalarOps) (cell : Cell) (maxseg : ℚ)
    (burg plane : Vec3) (θ : ℚ) :
    trialLen ops cell maxseg burg plane θ =
      if (marchOf ops cell burg plane (center cell) θ none maxseg).numnodes = maxnodes
      then -1
      else ops.sqrt (quadr
        ((marchOf ops cell burg plane (center cell) θ none maxseg).originpbc -
          center cell)) := by
  unfold trialLen
  rw [insert_trial_eq]

theorem trialLen_neg (ops : ScalarOps) (hsq : ∀ q, 0 ≤ ops.sqrt q)
    (cell : Cell) (maxseg : ℚ) (burg plane : Vec3) (θ : ℚ)
    (h : trialLen ops cell maxseg burg plane θ < 0) :
    trialLen ops cell maxseg burg plane θ = -1 := by
  rw [trialLen_eq] at h ⊢
  split at h
  · rw [if_pos (by assumption)]
  · exact absurd h (not_lt.mpr (hsq _))

theorem recordedRow_length (ops : ScalarOps) (cell : Cell) (maxseg : ℚ)
    (bu pl : Vec3) : (recordedRow ops cell maxseg bu pl).length = 19 := by
  simp [recordedRow]

theorem recordedRow_getD (ops : ScalarOps) (cell : Cell) (maxseg : ℚ)
    (bu pl : Vec3) (t : Nat) (ht : t < 19) :
    (recordedRow ops cell maxseg bu pl).getD t 0 =
      trialLen ops cell maxseg bu pl (theta_grid t) := by
  unfold recordedRow
  rw [getD_map_of_lt _ _ t _ 0 (by simpa using ht)]
  have hr : (List.range 19).getD t 0 = t := by
    rw [List.getD_eq_getElem _ _ (by simpa using ht)]
    simp
  rw [hr]

theorem calibRows_length (ops : ScalarOps) (cell : Cell) (maxseg : ℚ)
    (bs ns : List Vec3) :
    (calibRows ops cell maxseg bs ns).length = (bs.zip ns).length := by
  simp [calibRows]

theorem calibRows_getD (ops : ScalarOps) (cell : Cell) (maxseg : ℚ)
    (bs ns : List Vec3) (i : Nat) (hi : i < (bs.zip ns).length) :
    (calibRows ops cell maxseg bs ns).getD i [] =
      recordedRow ops cell maxseg ((bs.zip ns).getD i (0, 0)).1
        ((bs.zip ns).getD i (0, 0)).2 := by
  unfold calibRows
  rw [getD_map_of_lt _ _ i _ (0, 0) hi]

theorem calibMinlength_getD (ops : ScalarOps) (cell : Cell) (maxseg : ℚ)
    (bs ns : List Vec3) (i : Nat) (hi : i < (bs.zip ns).length) :
    (calibMinlength ops cell maxseg bs ns).getD i 0 =
      minRowValid ((calibRows ops cell maxseg bs ns).getD i []) := by
  unfold calibMinlength
  rw [getD_map_of_lt _ _ i _ [] (by rw [calibRows_length]; exact hi)]

theorem calibMinlength_length (ops : ScalarOps) (cell : Cell) (maxseg : ℚ)
    (bs ns : List Vec3) :
    (calibMinlength ops cell maxseg bs ns).length = (bs.zip ns).length := by
  simp [calibMinlength, calibRows]

/-- The error condition of the calibration, rephrased over the recorded
rows: `np.min(minlength) < 0` holds exactly when some slip system has
no non-negative recorded candidate. -/
theorem calib_minQ_neg_iff (ops : ScalarOps) (cell : Cell) (maxseg : ℚ)
    (bs ns : List Vec3) :
    minQ (calibMinlength ops cell maxseg bs ns) < 0 ↔
      ∃ i, i < (bs.zip ns).length ∧ ∀ t, t < 19 →
        ((calibRows ops cell maxseg bs ns).getD i []).getD t 0 < 0 := by
  rw [minQ_neg_iff]
  rw [exists_mem_iff_getD (calibMinlength ops cell maxseg bs ns) 0 (fun x => x < 0)]
  rw [calibMinlength_length]
  constructor
  · rintro ⟨i, hi, hneg⟩
    rw [calibMinlength_getD ops cell maxseg bs ns i hi] at hneg
    refine ⟨i, hi, ?_⟩
    have hrow := (minRowValid_neg_iff _).mp hneg
    intro t ht
    have hlen : t < ((calibRows ops cell maxseg bs ns).getD i []).length := by
      rw [calibRows_getD ops cell maxseg bs ns i hi, recordedRow_length]
      exact ht
    exact (all_mem_iff_getD _ 0 (fun x => x < 0)).mp hrow t hlen
  · rintro ⟨i, hi, hneg⟩
    refine ⟨i, hi, ?_⟩
    rw [calibMinlength_getD ops cell maxseg bs ns i hi]
    rw [minRowValid_neg_iff]
    rw [all_mem_iff_getD _ 0 (fun x => x < 0)]
    intro t ht
    rw [calibRows_getD ops cell maxseg bs ns i hi, recordedRow_length] at ht
    exact hneg t ht

/-- C5.  When `theta` is not supplied, `generate_line_config` evaluates
trial closure lengths for each slip system at the 19 character angles
`0, 5, ..., 90` degrees from the cell center; per system it selects an
angle whose recorded trial length has the smallest absolute difference
from the maximum, over all systems, of the per-system minimum valid
(non-negative) length; and it raises the configuration error exactly
when that maximum exceeds `10*Lbox` or some system has no non-negative
candidate.  The only hypothesis is that the square-root oracle is
non-negative, as `np.sqrt` is on valid inputs. -/
theorem calibrate_spec (ops : ScalarOps) (cell : Cell) (Lbox maxseg : ℚ)
    (bs ns : List Vec3) (hsq : ∀ q, 0 ≤ ops.sqrt q) :
    (∀ t : Nat, theta_grid t = 5 * t) ∧
    (∀ i t, i < (bs.zip ns).length → t < 19 →
      ((calibRows ops cell maxseg bs ns).getD i []).getD t 0 =
        trialLen ops cell maxseg ((bs.zip ns).getD i (0, 0)).1
          ((bs.zip ns).getD i (0, 0)).2 (theta_grid t)) ∧
    ((∃ e, calibrate ops cell Lbox maxseg bs ns = Except.error e) ↔
      (10 * Lbox < calibMax ops cell maxseg bs ns ∨
       ∃ i, i < (bs.zip ns).length ∧ ∀ t, t < 19 →
         ((calibRows ops cell maxseg bs ns).getD i []).getD t 0 < 0)) ∧
    (∀ thetas, calibrate ops cell Lbox maxseg bs ns = Except.ok thetas →
      ∀ i, i < (bs.zip ns).length →
        ∃ tstar, tstar < 19 ∧ thetas.getD i 0 = theta_grid tstar ∧
          0 ≤ ((calibRows ops cell maxseg bs ns).getD i []).getD tstar 0 ∧
          ∀ t, t < 19 →
            |((calibRows ops cell maxseg bs ns).getD i []).getD tstar 0 -
              calibMax ops cell maxseg bs ns| ≤
            |((calibRows ops cell maxseg bs ns).getD i []).getD t 0 -
              calibMax ops cell maxseg bs ns|) ∧
    (∀ (numLines : Nat) (posDraw : Nat → Vec3) (itheDraw : Nat → Nat),
      (∃ e, generate_line_config ops "BCC" Lbox numLines none maxseg posDraw itheDraw =
        Except.error e) ↔
      (∃ e, calibrate ops (cellCube Lbox) Lbox maxseg (normalizeRows ops bccB)
        (normalizeRows ops bccN) = Except.error e)) := by
  have hcal : calibrate ops cell Lbox maxseg bs ns =
      if 10 * Lbox < calibMax ops cell maxseg bs ns ∨
          minQ (calibMinlength ops cell maxseg bs ns) < 0 then
        Except.error "Error: cannot find appropriate line to insert"
      else
        Except.ok ((calibRows ops cell maxseg bs ns).map fun row =>
          theta_grid (margmin (fun v => |v - calibMax ops cell maxseg bs ns|) row)) := rfl
  have hCondIff : (10 * Lbox < calibMax ops cell maxseg bs ns ∨
      minQ (calibMinlength ops cell maxseg bs ns) < 0) ↔
      (10 * Lbox < calibMax ops cell maxseg bs ns ∨
       ∃ i, i < (bs.zip ns).length ∧ ∀ t, t < 19 →
         ((calibRows ops cell maxseg bs ns).getD i []).getD t 0 < 0) :=
    or_congr Iff.rfl (calib_minQ_neg_iff ops cell maxseg bs ns)
  refine ⟨?_, ?_, ?_, ?_, ?_⟩
  · intro t
    show (90 / 18 : ℚ) * t = 5 * t
    norm_num
  · intro i t hi ht
    rw [calibRows_getD ops cell maxseg bs ns i hi, recordedRow_getD _ _ _ _ _ t ht]
  · by_cases hc : 10 * Lbox < calibMax ops cell maxseg bs ns ∨
        minQ (calibMinlength ops cell maxseg bs ns) < 0
    · constructor
      · intro _
        exact hCondIff.mp hc
      · intro _
        exact ⟨_, by rw [hcal, if_pos hc]⟩
    · constructor
      · rintro ⟨e, he⟩
        rw [hcal, if_neg hc] at he
        cases he
      · intro hr
        exact absurd (hCondIff.mpr hr) hc
  · intro thetas hok i hi
    by_cases hc : 10 * Lbox < calibMax ops cell maxseg bs ns ∨
        minQ (calibMinlength ops cell maxseg bs ns) < 0
    · rw [hcal, if_pos hc] at hok
      cases hok
    · rw [hcal, if_neg hc] at hok
      injection hok with hok
      subst hok
      have hmemD : (calibMinlength ops cell maxseg bs ns).getD i 0 ∈
          calibMinlength ops cell maxseg bs ns := by
        rw [List.getD_eq_getElem _ _ (by rw [calibMinlength_length]; exact hi)]
        exact List.getElem_mem _
      have hml0 : 0 ≤ minRowValid ((calibRows ops cell maxseg bs ns).getD i []) := by
        have hnone : ¬ ∃ x ∈ calibMinlength ops cell maxseg bs ns, x < 0 := by
          rw [← minQ_neg_iff]
          intro h
          exact hc (Or.inr h)
        push_neg at hnone
        rw [← calibMinlength_getD ops cell maxseg bs ns i hi]
        exact hnone _ hmemD
      have hvalid : ∃ x ∈ (calibRows ops cell maxseg bs ns).getD i [], (0 : ℚ) ≤ x := by
        by_contra hno
        push_neg at hno
        exact absurd ((minRowValid_neg_iff _).mpr hno) (not_lt.mpr hml0)
      have hrowlen : ((calibRows ops cell maxseg bs ns).getD i []).length = 19 := by
        rw [calibRows_getD ops cell maxseg bs ns i hi]
        exact recordedRow_length ops cell maxseg _ _
      rcases margmin_spec (fun v => |v - calibMax ops cell maxseg bs ns|)
        ((calibRows ops cell maxseg bs ns).getD i []) hvalid with ⟨hlt, h0, hminim⟩
      refine ⟨margmin (fun v => |v - calibMax ops cell maxseg bs ns|)
          ((calibRows ops cell maxseg bs ns).getD i []),
        by rwa [hrowlen] at hlt, ?_, h0, ?_⟩
      · exact getD_map_of_lt _ _ i 0 []
          (by rw [calibRows_length]; exact hi)
      · intro t ht
        by_cases hvt : (0 : ℚ) ≤ ((calibRows ops cell maxseg bs ns).getD i []).getD t 0
        · simpa using hminim t (by rw [hrowlen]; exact ht) hvt
        · push_neg at hvt
          have hentry : ((calibRows ops cell maxseg bs ns).getD i []).getD t 0 = -1 := by
            rw [calibRows_getD ops cell maxseg bs ns i hi,
              recordedRow_getD _ _ _ _ _ t ht] at hvt ⊢
            exact trialLen_neg ops hsq cell maxseg _ _ _ hvt
          rw [hentry]
          have hM : minRowValid ((calibRows ops cell maxseg bs ns).getD i []) ≤
              calibMax ops cell maxseg bs ns := by
            rw [← calibMinlength_getD ops cell maxseg bs ns i hi]
            exact mem_le_maxQ _ _ hmemD
          have hM0 : 0 ≤ calibMax ops cell maxseg bs ns := le_trans hml0 hM
          rcases minRowValid_spec ((calibRows ops cell maxseg bs ns).getD i [])
            hvalid with ⟨hmemr, h0r, _⟩
          rcases List.mem_iff_getElem.mp hmemr with ⟨j, hj, hjeq⟩
          have hjD : ((calibRows ops cell maxseg bs ns).getD i []).getD j 0 =
              minRowValid ((calibRows ops cell maxseg bs ns).getD i []) := by
            rw [List.getD_eq_getElem _ _ hj]
            exact hjeq
          have h1 := hminim j hj (by rw [hjD]; exact h0r)
          simp only [hjD] at h1
          have h2 : |minRowValid ((calibRows ops cell maxseg bs ns).getD i []) -
              calibMax ops cell maxseg bs ns| =
              calibMax ops cell maxseg bs ns -
                minRowValid ((calibRows ops cell maxseg bs ns).getD i []) := by
            rw [abs_of_nonpos (by linarith)]
            ring
          have h3 : |(-1 : ℚ) - calibMax ops cell maxseg bs ns| =
              1 + calibMax ops cell maxseg bs ns := by
            rw [abs_of_nonpos (by linarith)]
            ring
          rw [h3]
          calc |((calibRows ops cell maxseg bs ns).getD i []).getD
                (margmin (fun v => |v - calibMax ops cell maxseg bs ns|)
                  ((calibRows ops cell maxseg bs ns).getD i [])) 0 -
                calibMax ops cell maxseg bs ns|
              ≤ |minRowValid ((calibRows ops cell maxseg bs ns).getD i []) -
                  calibMax ops cell maxseg bs ns| := by simpa using h1
            _ = calibMax ops cell maxseg bs ns -
                  minRowValid ((calibRows ops cell maxseg bs ns).getD i []) := h2
            _ ≤ 1 + calibMax ops cell maxseg bs ns := by linarith
  · intro numLines posDraw itheDraw
    cases hcal2 : calibrate ops (cellCube Lbox) Lbox maxseg (normalizeRows ops bccB)
        (normalizeRows ops bccN) with
    | error e => simp [generate_line_config, hcal2, Except.map]
    | ok ths => simp [generate_line_config, hcal2, Except.map]

/-- Single-system tables used by the calibration witness. -/
def bsW : List Vec3 := [⟨1, 0, 0⟩]

/-- Single-system plane table used by the calibration witness. -/
def nsW : List Vec3 := [⟨0, 0, 1⟩]

/-- Witness for C5: the calibration specification applied to the exact
rational oracle, the unit cube, and a single slip system, with the
square-root non-negativity hypothesis discharged by `ratSqrt_nonneg`. -/
theorem calibrate_spec_witness :
    (∀ q, 0 ≤ ratExact.sqrt q) ∧
    ((∀ t : Nat, theta_grid t = 5 * t) ∧
    (∀ i t, i < (bsW.zip nsW).length → t < 19 →
      ((calibRows ratExact (cellCube 1) (-1) bsW nsW).getD i []).getD t 0 =
        trialLen ratExact (cellCube 1) (-1) ((bsW.zip nsW).getD i (0, 0)).1
          ((bsW.zip nsW).getD i (0, 0)).2 (theta_grid t)) ∧
    ((∃ e, calibrate ratExact (cellCube 1) 1 (-1) bsW nsW = Except.error e) ↔
      (10 * 1 < calibMax ratExact (cellCube 1) (-1) bsW nsW ∨
       ∃ i, i < (bsW.zip nsW).length ∧ ∀ t, t < 19 →
         ((calibRows ratExact (cellCube 1) (-1) bsW nsW).getD i []).getD t 0 < 0)) ∧
    (∀ thetas, calibrate ratExact (cellCube 1) 1 (-1) bsW nsW = Except.ok thetas →
      ∀ i, i < (bsW.zip nsW).length →
        ∃ tstar, tstar < 19 ∧ thetas.getD i 0 = theta_grid tstar ∧
          0 ≤ ((calibRows ratExact (cellCube 1) (-1) bsW nsW).getD i []).getD tstar 0 ∧
          ∀ t, t < 19 →
            |((calibRows ratExact (cellCube 1) (-1) bsW nsW).getD i []).getD tstar 0 -
              calibMax ratExact (cellCube 1) (-1) bsW nsW| ≤
            |((calibRows ratExact (cellCube 1) (-1) bsW nsW).getD i []).getD t 0 -
              calibMax ratExact (cellCube 1) (-1) bsW nsW|) ∧
    (∀ (numLines : Nat) (posDraw : Nat → Vec3) (itheDraw : Nat → Nat),
      (∃ e, generate_line_config ratExact "BCC" 1 numLines none (-1) posDraw itheDraw =
        Except.error e) ↔
      (∃ e, calibrate ratExact (cellCube 1) 1 (-1) (normalizeRows ratExact bccB)
        (normalizeRows ratExact bccN) = Except.error e))) :=
  ⟨fun q => ratSqrt_nonneg q,
   calibrate_spec ratExact (cellCube 1) 1 (-1) bsW nsW (fun q => ratSqrt_nonneg q)⟩

/-- Witness for C10: the dipole partner relation at `i = 1` with a
single slip system. -/
theorem lineArgs_dipole_witness :
    0 < bsW.length ∧ (1 / bsW.length) % 2 = 1 ∧
    (bsW.length ≤ 1 ∧
     ((1 - bsW.length) / bsW.length) % 2 = 0 ∧
     1 % bsW.length = (1 - bsW.length) % bsW.length ∧
     lineTheta [[7]] (fun _ => 0) bsW.length 1 =
       lineTheta [[7]] (fun _ => 0) bsW.length (1 - bsW.length) ∧
     lineArgs ratExact bsW nsW [[7]] (fun _ => 0) 1 =
       ((lineArgs ratExact bsW nsW [[7]] (fun _ => 0) (1 - bsW.length)).1,
        (lineArgs ratExact bsW nsW [[7]] (fun _ => 0) (1 - bsW.length)).2.1,
        -((lineArgs ratExact bsW nsW [[7]] (fun _ => 0) (1 - bsW.length)).2.2))) :=
  ⟨by decide, by decide,
   lineArgs_dipole ratExact bsW nsW [[7]] (fun _ => 0) 1 (by decide) (by decide)⟩

end PyExadis
